import Mathlib

/-!
Verification of the SportsAnalysisTools repository.

The repository has two Python modules:
  * `src/testdatagen.py` — a per-tick stochastic trajectory simulator
    (`generate_tracking_data`) producing one `(identifier, t, round(x,2), round(y,2))`
    row per tick, plus metadata generation;
  * `src/trackervis.py` — metric reducers over a position sequence
    (`calculate_total_distance`, `calculate_time_in_regions`,
    `calculate_sprint_time`, `calculate_quick_turns`) plus plotting.

Python floats are idealised as real numbers: `math.hypot(a, b)` becomes
`Real.sqrt (a^2 + b^2)`, `math.acos` becomes `Real.arccos`, `math.degrees`
multiplies by `180 / π`, and `round(v, 2)` becomes rounding `100 * v` to the
nearest integer and dividing by `100`.  The region counter
`calculate_time_in_regions` performs only exact decimal comparisons, so it is
embedded over `ℚ`, where it is fully executable.

Randomness is modelled by an explicit stream of per-tick draws: `ax`/`ay` for
the two `random.uniform(-0.15, 0.15)` calls, `r` for `random.random()` in the
sprint-start test, and `dur` for `random.randint(3, 7)`.  The CSV writer is
modelled by returning the list of emitted samples; the identifier column is
constant throughout one call of the generator and is omitted from the sample
record.
-/

namespace SportsAnalysis

/-- Real-number reading of Python's `math.hypot`. -/
noncomputable def hypot (a b : ℝ) : ℝ := Real.sqrt (a ^ 2 + b ^ 2)

/-- Real-number reading of Python's `round(v, 2)`: round `100 * v` to the
nearest integer and divide by `100`. -/
noncomputable def round2 (v : ℝ) : ℝ := ((round (v * 100) : ℤ) : ℝ) / 100

/-- The mutable per-agent kinematic state of `generate_tracking_data`
(`src/testdatagen.py`): position `(x, y)`, velocity `(vx, vy)` and the
`sprint_duration_counter`.  The counter is a natural number: it is only ever
set to a `randint(3, 7)` result and decremented while positive. -/
structure SimState where
  x : ℝ
  y : ℝ
  vx : ℝ
  vy : ℝ
  sprint_duration_counter : ℕ

/-- The stochastic draws one tick of the simulator may consume:
`ax`, `ay` model `random.uniform(-0.15, 0.15)`, `r` models `random.random()`
and `dur` models `random.randint(3, 7)`. -/
structure Draw where
  ax : ℝ
  ay : ℝ
  r : ℝ
  dur : ℕ

/-- One emitted row of the tracking CSV (identifier column omitted: it is the
same constant on every row of one generator call): tick index and the two
rounded coordinates. -/
structure Sample where
  tick : ℕ
  x : ℝ
  y : ℝ

/-- Lines 43–47 of `src/testdatagen.py`: the attraction of the agent to its
`attraction_point`, subtracted from the base acceleration.  `x_max = 30`,
`y_max = 50`, `max_attraction_force = 0.2`. -/
noncomputable def applyAttraction (attraction_x attraction_y x y ax ay : ℝ) : ℝ × ℝ :=
  let dx := x - attraction_x
  let dy := y - attraction_y
  (ax - dx / 30 * |dx / 30| * 0.2, ay - dy / 50 * |dy / 50| * 0.2)

/-- Result of the sprinting block: the (possibly boosted) acceleration and the
updated sprint counter. -/
structure SprintOut where
  ax : ℝ
  ay : ℝ
  counter : ℕ

/-- Lines 50–59 of `src/testdatagen.py`, the sprinting logic: while the
counter is positive, boost the acceleration along the current velocity
direction (`sprint_boost = 1.0`) provided the current speed exceeds `0.1`,
and decrement the counter; otherwise, when the `random.random()` draw falls
below `sprint_chance = 0.02`, start a sprint of `randint(3, 7)` ticks. -/
noncomputable def sprintLogic (ax ay vx vy : ℝ) (counter : ℕ) (r : ℝ) (dur : ℕ) :
    SprintOut :=
  if 0 < counter then
    let a :=
      if hypot vx vy > 0.1 then
        (ax + vx / hypot vx vy * 1.0, ay + vy / hypot vx vy * 1.0)
      else (ax, ay)
    ⟨a.1, a.2, counter - 1⟩
  else if r < 0.02 then ⟨ax, ay, dur⟩
  else ⟨ax, ay, 0⟩

/-- Lines 62–76 of `src/testdatagen.py`: add the acceleration to the velocity,
apply the `0.90` drag factor, then cap the speed at `max_speed = 7.0` while
preserving direction. -/
noncomputable def updateVelocity (vx vy ax ay : ℝ) : ℝ × ℝ :=
  let vx1 := (vx + ax) * 0.90
  let vy1 := (vy + ay) * 0.90
  let speed := hypot vx1 vy1
  if speed > 7.0 then (vx1 / speed * 7.0, vy1 / speed * 7.0) else (vx1, vy1)

/-- Lines 80–86 of `src/testdatagen.py`, the boundary collision for one axis
(the source repeats this pattern verbatim for `x` with bounds `±30` and for
`y` with bounds `±50`): when the position leaves the open interval
`(lo, hi)`, clamp it to `[lo, hi]` and multiply the velocity by `-0.5`. -/
noncomputable def bounce1 (lo hi pos v : ℝ) : ℝ × ℝ :=
  if ¬ (lo < pos ∧ pos < hi) then (max lo (min hi pos), v * (-0.5)) else (pos, v)

/-- One iteration of the main loop of `generate_tracking_data`
(`src/testdatagen.py`, lines 38–86): base random acceleration, attraction,
sprinting, velocity update with drag and speed cap, position update, and
boundary collision on each axis independently. -/
noncomputable def stepTick (attraction : ℝ × ℝ) (d : Draw) (s : SimState) : SimState :=
  let a := applyAttraction attraction.1 attraction.2 s.x s.y d.ax d.ay
  let sp := sprintLogic a.1 a.2 s.vx s.vy s.sprint_duration_counter d.r d.dur
  let v := updateVelocity s.vx s.vy sp.ax sp.ay
  let x1 := s.x + v.1
  let y1 := s.y + v.2
  let bx := bounce1 (-30) 30 x1 v.1
  let bY := bounce1 (-50) 50 y1 v.2
  ⟨bx.1, bY.1, bx.2, bY.2, sp.counter⟩

/-- The initial state of `generate_tracking_data`: position and velocity zero,
no sprint in progress. -/
def initState : SimState := ⟨0, 0, 0, 0, 0⟩

/-- The main loop of `generate_tracking_data`: starting at tick `t` with `n`
ticks left in state `s`, run `stepTick` once per tick and emit one sample with
the coordinates rounded to 2 decimal places (line 88 of
`src/testdatagen.py`). -/
noncomputable def runSim (attraction : ℝ × ℝ) (draws : ℕ → Draw) :
    ℕ → ℕ → SimState → List Sample
  | _, 0, _ => []
  | t, Nat.succ n, s =>
    let s' := stepTick attraction (draws t) s
    ⟨t, round2 s'.x, round2 s'.y⟩ :: runSim attraction draws (t + 1) n s'

/-- `generate_tracking_data(writer, identifier, num_rows, attraction_point)`
from `src/testdatagen.py`: the list of rows written for one agent, as a
function of the random draw stream. -/
noncomputable def generate_tracking_data (draws : ℕ → Draw) (num_rows : ℕ)
    (attraction : ℝ × ℝ) : List Sample :=
  runSim attraction draws 1 num_rows initState

/-- `calculate_total_distance` from `src/trackervis.py`: sum of Euclidean
distances between consecutive position samples. -/
noncomputable def calculate_total_distance : List (ℝ × ℝ) → ℝ
  | p1 :: p2 :: rest =>
      hypot (p2.1 - p1.1) (p2.2 - p1.2) + calculate_total_distance (p2 :: rest)
  | _ => 0

/-- The body of the row loop of `calculate_time_in_regions`
(`src/trackervis.py`): add the sample to the band its `y` falls in, using
`region_bounds = [-50, -16.67, 16.67, 50]`; a `y` matching none of the three
tests leaves the counters unchanged. -/
def regionStep (times : ℕ × ℕ × ℕ) (y : ℚ) : ℕ × ℕ × ℕ :=
  if -50 ≤ y ∧ y < -16.67 then (times.1 + 1, times.2.1, times.2.2)
  else if -16.67 ≤ y ∧ y < 16.67 then (times.1, times.2.1 + 1, times.2.2)
  else if 16.67 ≤ y ∧ y ≤ 50 then (times.1, times.2.1, times.2.2 + 1)
  else times

/-- `calculate_time_in_regions` from `src/trackervis.py`: the three band
counters after processing the `y` column of every row.  The comparisons are
exact decimal tests, so the function is embedded over `ℚ` and is
executable. -/
def calculate_time_in_regions (positions : List (ℚ × ℚ)) : ℕ × ℕ × ℕ :=
  positions.foldl (fun acc p => regionStep acc p.2) (0, 0, 0)

/-- The body of the index loop of `calculate_quick_turns`
(`src/trackervis.py`, lines 82–107) at three consecutive positions: `1` when
the earlier segment is faster than `3 m/s` and the clamped-arccosine angle
between the two segment directions exceeds `90°`, `0` otherwise (including
the explicitly skipped zero-length-direction case). -/
noncomputable def turnAt (p0 p1 p2 : ℝ × ℝ) : ℕ :=
  let dist_prev := hypot (p1.1 - p0.1) (p1.2 - p0.2)
  if dist_prev > 3 then
    let v1 := (p1.1 - p0.1, p1.2 - p0.2)
    let v2 := (p2.1 - p1.1, p2.2 - p1.2)
    let dot := v1.1 * v2.1 + v1.2 * v2.2
    let mag1 := hypot v1.1 v1.2
    let mag2 := hypot v2.1 v2.2
    if mag1 = 0 ∨ mag2 = 0 then 0
    else
      let cosTheta := max (-1 : ℝ) (min 1 (dot / (mag1 * mag2)))
      let angle := Real.arccos cosTheta * (180 / Real.pi)
      if angle > 90 then 1 else 0
  else 0

/-- `calculate_quick_turns` from `src/trackervis.py`: the number of indices
`i ≥ 2` whose window of three consecutive positions registers a quick turn. -/
noncomputable def calculate_quick_turns : List (ℝ × ℝ) → ℕ
  | p0 :: p1 :: p2 :: rest => turnAt p0 p1 p2 + calculate_quick_turns (p1 :: p2 :: rest)
  | _ => 0

/-! ### Basic facts about `hypot`, `round2` and `bounce1` -/

lemma hypot_nonneg (a b : ℝ) : 0 ≤ hypot a b := Real.sqrt_nonneg _

lemma hypot_sq (a b : ℝ) : hypot a b ^ 2 = a ^ 2 + b ^ 2 :=
  Real.sq_sqrt (by positivity)

lemma hypot_eq_of_sq (a b c : ℝ) (hc : 0 ≤ c) (h : a ^ 2 + b ^ 2 = c ^ 2) :
    hypot a b = c := by
  rw [hypot, h, Real.sqrt_sq hc]

lemma hypot_le_of_sq_le (a b c : ℝ) (hc : 0 ≤ c) (h : a ^ 2 + b ^ 2 ≤ c ^ 2) :
    hypot a b ≤ c := by
  rw [hypot]
  calc Real.sqrt (a ^ 2 + b ^ 2) ≤ Real.sqrt (c ^ 2) := Real.sqrt_le_sqrt h
    _ = c := Real.sqrt_sq hc

lemma hypot_le_hypot (a b c d : ℝ) (h1 : a ^ 2 ≤ c ^ 2) (h2 : b ^ 2 ≤ d ^ 2) :
    hypot a b ≤ hypot c d :=
  Real.sqrt_le_sqrt (add_le_add h1 h2)

lemma round_le_round {x y : ℝ} (h : x ≤ y) : round x ≤ round y := by
  rw [round_eq, round_eq]
  exact Int.floor_le_floor (by linarith)

lemma round2_le_int {x : ℝ} {z : ℤ} (h : x ≤ z) : round2 x ≤ z := by
  have h2 : x * 100 ≤ ((z * 100 : ℤ) : ℝ) := by
    push_cast
    exact mul_le_mul_of_nonneg_right h (by norm_num)
  have h1 : round (x * 100) ≤ z * 100 := by
    calc round (x * 100) ≤ round (((z * 100 : ℤ) : ℝ)) := round_le_round h2
      _ = z * 100 := round_intCast _
  rw [round2, div_le_iff₀ (by norm_num : (0:ℝ) < 100)]
  exact_mod_cast h1

lemma int_le_round2 {x : ℝ} {z : ℤ} (h : (z : ℝ) ≤ x) : (z : ℝ) ≤ round2 x := by
  have h2 : ((z * 100 : ℤ) : ℝ) ≤ x * 100 := by
    push_cast
    exact mul_le_mul_of_nonneg_right h (by norm_num)
  have h1 : z * 100 ≤ round (x * 100) := by
    calc z * 100 = round (((z * 100 : ℤ) : ℝ)) := (round_intCast _).symm
      _ ≤ round (x * 100) := round_le_round h2
  rw [round2, le_div_iff₀ (by norm_num : (0:ℝ) < 100)]
  exact_mod_cast h1

lemma bounce1_fst_mem (lo hi pos v : ℝ) (hlh : lo ≤ hi) :
    lo ≤ (bounce1 lo hi pos v).1 ∧ (bounce1 lo hi pos v).1 ≤ hi := by
  rw [bounce1]
  split
  · exact ⟨le_max_left _ _, max_le hlh (min_le_left _ _)⟩
  · rename_i h
    rw [not_not] at h
    exact ⟨h.1.le, h.2.le⟩

lemma bounce1_out (lo hi pos v : ℝ) (h : pos ≤ lo ∨ hi ≤ pos) :
    bounce1 lo hi pos v = (max lo (min hi pos), v * (-0.5)) := by
  rw [bounce1, if_pos]
  rintro ⟨h1, h2⟩
  rcases h with h | h <;> linarith

lemma bounce1_in (lo hi pos v : ℝ) (h1 : lo < pos) (h2 : pos < hi) :
    bounce1 lo hi pos v = (pos, v) := by
  rw [bounce1]
  exact if_neg (not_not_intro ⟨h1, h2⟩)

lemma stepTick_x_mem (attraction : ℝ × ℝ) (d : Draw) (s : SimState) :
    -30 ≤ (stepTick attraction d s).x ∧ (stepTick attraction d s).x ≤ 30 := by
  simp only [stepTick]
  exact bounce1_fst_mem _ _ _ _ (by norm_num)

lemma stepTick_y_mem (attraction : ℝ × ℝ) (d : Draw) (s : SimState) :
    -50 ≤ (stepTick attraction d s).y ∧ (stepTick attraction d s).y ≤ 50 := by
  simp only [stepTick]
  exact bounce1_fst_mem _ _ _ _ (by norm_num)

lemma sample_bounds (attraction : ℝ × ℝ) (draws : ℕ → Draw) :
    ∀ (n t : ℕ) (s : SimState),
      (runSim attraction draws t n s).Forall
        (fun smp => -30 ≤ smp.x ∧ smp.x ≤ 30 ∧ -50 ≤ smp.y ∧ smp.y ≤ 50) := by
  intro n
  induction n with
  | zero => intro t s; trivial
  | succ n ih =>
    intro t s
    simp only [runSim, List.forall_cons]
    refine ⟨⟨?_, ?_, ?_, ?_⟩, ih _ _⟩
    · have h := (stepTick_x_mem attraction (draws t) s).1
      have h' : ((-30 : ℤ) : ℝ) ≤ round2 (stepTick attraction (draws t) s).x :=
        int_le_round2 (by exact_mod_cast h)
      exact_mod_cast h'
    · have h := (stepTick_x_mem attraction (draws t) s).2
      have h' : round2 (stepTick attraction (draws t) s).x ≤ ((30 : ℤ) : ℝ) :=
        round2_le_int (by exact_mod_cast h)
      exact_mod_cast h'
    · have h := (stepTick_y_mem attraction (draws t) s).1
      have h' : ((-50 : ℤ) : ℝ) ≤ round2 (stepTick attraction (draws t) s).y :=
        int_le_round2 (by exact_mod_cast h)
      exact_mod_cast h'
    · have h := (stepTick_y_mem attraction (draws t) s).2
      have h' : round2 (stepTick attraction (draws t) s).y ≤ ((50 : ℤ) : ℝ) :=
        round2_le_int (by exact_mod_cast h)
      exact_mod_cast h'

/-- Claim C1: for every sample count, every attraction point and every
sequence of random draws, every emitted Position Sample of the trajectory
simulator satisfies `-30 ≤ x ≤ 30` and `-50 ≤ y ≤ 50` — the rounded
coordinates written on each tick lie within the pitch bounds. -/
theorem C1_pitch_bounds (N : ℕ) (attraction : ℝ × ℝ) (draws : ℕ → Draw) :
    (generate_tracking_data draws N attraction).Forall
      (fun smp => -30 ≤ smp.x ∧ smp.x ≤ 30 ∧ -50 ≤ smp.y ∧ smp.y ≤ 50) :=
  sample_bounds attraction draws N 1 initState

lemma runSim_map_tick (attraction : ℝ × ℝ) (draws : ℕ → Draw) :
    ∀ (n t : ℕ) (s : SimState),
      (runSim attraction draws t n s).map Sample.tick = List.range' t n := by
  intro n
  induction n with
  | zero => intro t s; rfl
  | succ n ih =>
    intro t s
    simp [runSim, List.range', ih]

/-- Claim C2: for every sample count `N` and any random draws, the trajectory
simulator emits exactly `N` Position Samples, whose tick indices are exactly
the contiguous strictly increasing sequence `1, 2, ..., N`. -/
theorem C2_trajectory_ticks (draws : ℕ → Draw) (N : ℕ) (attraction : ℝ × ℝ) :
    (generate_tracking_data draws N attraction).length = N ∧
      (generate_tracking_data draws N attraction).map Sample.tick = List.range' 1 N := by
  have h := runSim_map_tick attraction draws N 1 initState
  refine ⟨?_, h⟩
  have h2 := congrArg List.length h
  simpa using h2

/-- Claim C3: the sprint logic is a two-branch state machine in which the
SPRINTING branch (`counter > 0`) strictly precedes and excludes the IDLE
branch.  With the counter positive, the counter is decremented and, exactly
when the current speed exceeds `0.1`, a boost of magnitude `1.0` along the
current velocity's unit vector is added to the acceleration; with the counter
zero the acceleration is untouched and the counter becomes the `randint(3,7)`
draw exactly when the `random.random()` draw is below `0.02`. -/
theorem C3_sprint_machine (ax ay vx vy : ℝ) (counter : ℕ) (r : ℝ) (dur : ℕ) :
    (0 < counter →
        (sprintLogic ax ay vx vy counter r dur).counter = counter - 1
          ∧ (0.1 < hypot vx vy →
              (sprintLogic ax ay vx vy counter r dur).ax = ax + vx / hypot vx vy * 1.0
                ∧ (sprintLogic ax ay vx vy counter r dur).ay = ay + vy / hypot vx vy * 1.0
                ∧ hypot ((sprintLogic ax ay vx vy counter r dur).ax - ax)
                    ((sprintLogic ax ay vx vy counter r dur).ay - ay) = 1)
          ∧ (hypot vx vy ≤ 0.1 →
              (sprintLogic ax ay vx vy counter r dur).ax = ax
                ∧ (sprintLogic ax ay vx vy counter r dur).ay = ay))
      ∧ (counter = 0 →
          (sprintLogic ax ay vx vy counter r dur).ax = ax
            ∧ (sprintLogic ax ay vx vy counter r dur).ay = ay
            ∧ (r < 0.02 → (sprintLogic ax ay vx vy counter r dur).counter = dur)
            ∧ (0.02 ≤ r → (sprintLogic ax ay vx vy counter r dur).counter = 0)) := by
  refine ⟨fun hc => ⟨?_, fun hsp => ⟨?_, ?_, ?_⟩, fun hle => ⟨?_, ?_⟩⟩,
    fun hc => ⟨?_, ?_, fun hr => ?_, fun hr => ?_⟩⟩
  · simp [sprintLogic, if_pos hc]
  · simp [sprintLogic, if_pos hc, if_pos hsp]
  · simp [sprintLogic, if_pos hc, if_pos hsp]
  · simp only [sprintLogic, if_pos hc, if_pos hsp]
    have hne : hypot vx vy ≠ 0 := ne_of_gt (lt_trans (by norm_num) hsp)
    rw [show ax + vx / hypot vx vy * 1.0 - ax = vx / hypot vx vy by ring,
      show ay + vy / hypot vx vy * 1.0 - ay = vy / hypot vx vy by ring]
    apply hypot_eq_of_sq _ _ _ (by norm_num)
    have hsq := hypot_sq vx vy
    field_simp
    linarith [hsq]
  · simp [sprintLogic, if_pos hc, if_neg (not_lt.mpr hle)]
  · simp [sprintLogic, if_pos hc, if_neg (not_lt.mpr hle)]
  · subst hc; simp only [sprintLogic, if_neg (lt_irrefl 0)]; split <;> rfl
  · subst hc; simp only [sprintLogic, if_neg (lt_irrefl 0)]; split <;> rfl
  · subst hc; simp [sprintLogic, if_pos hr]
  · subst hc; simp [sprintLogic, if_neg (not_lt.mpr hr)]

/-- Claim C4: with `dx = x - attraction_x` and `dy = y - attraction_y`, the
attraction contribution subtracted from the acceleration is exactly
`(dx/30) * |dx/30| * 0.2` on the x component and `(dy/50) * |dy/50| * 0.2` on
the y component, each axis normalised by the fixed positive pitch half-extent
regardless of the sign of the offset — so the term is restoring on both
sides of the attraction point. -/
theorem C4_attraction_formula (attraction_x attraction_y x y ax ay : ℝ) :
    (applyAttraction attraction_x attraction_y x y ax ay).1
        = ax - (x - attraction_x) / 30 * |(x - attraction_x) / 30| * 0.2
      ∧ (applyAttraction attraction_x attraction_y x y ax ay).2
        = ay - (y - attraction_y) / 50 * |(y - attraction_y) / 50| * 0.2
      ∧ (x < attraction_x → ax < (applyAttraction attraction_x attraction_y x y ax ay).1)
      ∧ (attraction_x < x → (applyAttraction attraction_x attraction_y x y ax ay).1 < ax) := by
  refine ⟨rfl, rfl, ?_, ?_⟩
  · intro hx
    simp only [applyAttraction]
    have hdx : (x - attraction_x) / 30 < 0 :=
      div_neg_of_neg_of_pos (by linarith) (by norm_num)
    rw [abs_of_neg hdx]
    nlinarith [mul_pos_of_neg_of_neg hdx hdx]
  · intro hx
    simp only [applyAttraction]
    have hdx : 0 < (x - attraction_x) / 30 :=
      div_pos (by linarith) (by norm_num)
    rw [abs_of_pos hdx]
    nlinarith [mul_pos hdx hdx]

/-- Claim C5: after the position update each axis is handled independently;
when the new coordinate leaves the open interval (equality counts as out of
bounds) it is clamped into the closed pitch interval and its velocity
component is multiplied by `-0.5`, and when it stays strictly inside the open
interval the coordinate and its velocity are left unchanged — with bounds
`±30` for `x`/`vx` and `±50` for `y`/`vy`. -/
theorem C5_boundary_bounce (x y vx vy : ℝ) :
    ((x ≤ -30 ∨ 30 ≤ x) →
        bounce1 (-30) 30 x vx = (max (-30) (min 30 x), vx * (-0.5))
          ∧ -30 ≤ (bounce1 (-30) 30 x vx).1 ∧ (bounce1 (-30) 30 x vx).1 ≤ 30)
      ∧ (-30 < x → x < 30 → bounce1 (-30) 30 x vx = (x, vx))
      ∧ ((y ≤ -50 ∨ 50 ≤ y) →
        bounce1 (-50) 50 y vy = (max (-50) (min 50 y), vy * (-0.5))
          ∧ -50 ≤ (bounce1 (-50) 50 y vy).1 ∧ (bounce1 (-50) 50 y vy).1 ≤ 50)
      ∧ (-50 < y → y < 50 → bounce1 (-50) 50 y vy = (y, vy)) :=
  ⟨fun h => ⟨bounce1_out _ _ _ _ h, bounce1_fst_mem _ _ _ _ (by norm_num)⟩,
   fun h1 h2 => bounce1_in _ _ _ _ h1 h2,
   fun h => ⟨bounce1_out _ _ _ _ h, bounce1_fst_mem _ _ _ _ (by norm_num)⟩,
   fun h1 h2 => bounce1_in _ _ _ _ h1 h2⟩

/-! ### Total distance is symmetric under reversal -/

lemma segDist_symm (p q : ℝ × ℝ) :
    hypot (q.1 - p.1) (q.2 - p.2) = hypot (p.1 - q.1) (p.2 - q.2) := by
  rw [hypot, hypot]
  congr 1
  ring

lemma ctd_append_last :
    ∀ (l : List (ℝ × ℝ)) (x : ℝ × ℝ),
      calculate_total_distance (l ++ [x])
        = calculate_total_distance l
          + (l.getLast?.elim 0 fun y => hypot (x.1 - y.1) (x.2 - y.2)) := by
  intro l
  induction l with
  | nil => intro x; simp [calculate_total_distance]
  | cons a t ih =>
    intro x
    cases t with
    | nil => simp [calculate_total_distance]
    | cons b t' =>
      have e1 : calculate_total_distance ((a :: b :: t') ++ [x])
          = hypot (b.1 - a.1) (b.2 - a.2) + calculate_total_distance ((b :: t') ++ [x]) := rfl
      have e2 : calculate_total_distance (a :: b :: t')
          = hypot (b.1 - a.1) (b.2 - a.2) + calculate_total_distance (b :: t') := rfl
      rw [e1, e2, ih x, List.getLast?_cons_cons]
      ring

/-- Claim C9: the total distance (sum of Euclidean distances between
consecutive samples) of any finite position sequence equals the total
distance of the same sequence in reversed order. -/
theorem C9_distance_reverse (positions : List (ℝ × ℝ)) :
    calculate_total_distance positions.reverse = calculate_total_distance positions := by
  induction positions with
  | nil => rfl
  | cons a t ih =>
    rw [List.reverse_cons, ctd_append_last, ih, List.getLast?_reverse]
    cases t with
    | nil => simp [calculate_total_distance]
    | cons b t' =>
      simp only [List.head?_cons, Option.elim_some, calculate_total_distance]
      rw [segDist_symm b a]
      ring

/-! ### Zonal dwell time -/

lemma regionStep_sum (acc : ℕ × ℕ × ℕ) (y : ℚ) (h1 : -50 ≤ y) (h2 : y ≤ 50) :
    (regionStep acc y).1 + (regionStep acc y).2.1 + (regionStep acc y).2.2
      = acc.1 + acc.2.1 + acc.2.2 + 1 := by
  rw [regionStep]
  split_ifs with ha hb hc
  · show acc.1 + 1 + acc.2.1 + acc.2.2 = acc.1 + acc.2.1 + acc.2.2 + 1
    omega
  · show acc.1 + (acc.2.1 + 1) + acc.2.2 = acc.1 + acc.2.1 + acc.2.2 + 1
    omega
  · show acc.1 + acc.2.1 + (acc.2.2 + 1) = acc.1 + acc.2.1 + acc.2.2 + 1
    omega
  · exfalso
    rcases lt_or_le y (-16.67 : ℚ) with h | h
    · exact ha ⟨h1, h⟩
    rcases lt_or_le y (16.67 : ℚ) with h' | h'
    · exact hb ⟨h, h'⟩
    · exact hc ⟨h', h2⟩

lemma foldl_region_sum :
    ∀ (l : List (ℚ × ℚ)) (acc : ℕ × ℕ × ℕ),
      (∀ p ∈ l, -50 ≤ p.2 ∧ p.2 ≤ 50) →
      (l.foldl (fun acc p => regionStep acc p.2) acc).1
          + (l.foldl (fun acc p => regionStep acc p.2) acc).2.1
          + (l.foldl (fun acc p => regionStep acc p.2) acc).2.2
        = acc.1 + acc.2.1 + acc.2.2 + l.length := by
  intro l
  induction l with
  | nil => intro acc h; simp
  | cons p t ih =>
    intro acc h
    rw [List.foldl_cons,
      ih (regionStep acc p.2) (fun q hq => h q (List.mem_cons_of_mem _ hq)),
      regionStep_sum acc p.2 (h p (List.mem_cons_self _ _)).1 (h p (List.mem_cons_self _ _)).2]
    simp only [List.length_cons]
    omega

lemma foldl_region_band1 :
    ∀ (n : ℕ) (acc : ℕ × ℕ × ℕ),
      (List.replicate n ((0:ℚ), -20)).foldl (fun acc p => regionStep acc p.2) acc
        = (acc.1 + n, acc.2.1, acc.2.2) := by
  intro n
  induction n with
  | zero => intro acc; simp
  | succ n ih =>
    intro acc
    rw [List.replicate_succ, List.foldl_cons]
    have hstep : regionStep acc (((0:ℚ), (-20:ℚ)).2) = (acc.1 + 1, acc.2.1, acc.2.2) := by
      show regionStep acc (-20 : ℚ) = _
      rw [regionStep, if_pos (by norm_num)]
    rw [hstep, ih]
    dsimp only
    simp only [Prod.mk.injEq, and_true, true_and]
    omega

lemma foldl_region_band2 :
    ∀ (n : ℕ) (acc : ℕ × ℕ × ℕ),
      (List.replicate n ((0:ℚ), 0)).foldl (fun acc p => regionStep acc p.2) acc
        = (acc.1, acc.2.1 + n, acc.2.2) := by
  intro n
  induction n with
  | zero => intro acc; simp
  | succ n ih =>
    intro acc
    rw [List.replicate_succ, List.foldl_cons]
    have hstep : regionStep acc (((0:ℚ), (0:ℚ)).2) = (acc.1, acc.2.1 + 1, acc.2.2) := by
      show regionStep acc (0 : ℚ) = _
      rw [regionStep, if_neg (by norm_num), if_pos (by norm_num)]
    rw [hstep, ih]
    dsimp only
    simp only [Prod.mk.injEq, and_true, true_and]
    omega

lemma foldl_region_band3 :
    ∀ (n : ℕ) (acc : ℕ × ℕ × ℕ),
      (List.replicate n ((0:ℚ), 40)).foldl (fun acc p => regionStep acc p.2) acc
        = (acc.1, acc.2.1, acc.2.2 + n) := by
  intro n
  induction n with
  | zero => intro acc; simp
  | succ n ih =>
    intro acc
    rw [List.replicate_succ, List.foldl_cons]
    have hstep : regionStep acc (((0:ℚ), (40:ℚ)).2) = (acc.1, acc.2.1, acc.2.2 + 1) := by
      show regionStep acc (40 : ℚ) = _
      rw [regionStep, if_neg (by norm_num), if_neg (by norm_num), if_pos (by norm_num)]
    rw [hstep, ih]
    dsimp only
    simp only [Prod.mk.injEq, and_true, true_and]
    omega

/-- Claim C7 is false as stated: for the one-sample sequence at `y = 51`
(outside the pitch) the three band counts of `calculate_time_in_regions` sum
to `0`, not to the number of samples. -/
theorem C7_regions_counterexample :
    ¬ ((calculate_time_in_regions [((0:ℚ), 51)]).1
        + (calculate_time_in_regions [((0:ℚ), 51)]).2.1
        + (calculate_time_in_regions [((0:ℚ), 51)]).2.2
        = ([((0:ℚ), 51)] : List (ℚ × ℚ)).length) := by
  have h : calculate_time_in_regions [((0:ℚ), 51)] = (0, 0, 0) := by
    simp only [calculate_time_in_regions, List.foldl_cons, List.foldl_nil]
    rw [regionStep, if_neg (by norm_num), if_neg (by norm_num), if_neg (by norm_num)]
  rw [h]
  simp

/-- Claim C7 (amended to sequences whose `y` coordinates lie within the pitch
interval `[-50, 50]`, as every generated sample does): the zonal dwell
computation attributes each sample to exactly one band, so the three band
counts sum to the number of samples; a trajectory entirely at `y = -20` is
attributed wholly to band 1, at `y = 0` wholly to band 2, and at `y = 40`
wholly to band 3. -/
theorem C7_regions_partition (positions : List (ℚ × ℚ))
    (h : ∀ p ∈ positions, -50 ≤ p.2 ∧ p.2 ≤ 50) :
    ((calculate_time_in_regions positions).1
        + (calculate_time_in_regions positions).2.1
        + (calculate_time_in_regions positions).2.2 = positions.length)
      ∧ (∀ n : ℕ, calculate_time_in_regions (List.replicate n ((0:ℚ), -20)) = (n, 0, 0))
      ∧ (∀ n : ℕ, calculate_time_in_regions (List.replicate n ((0:ℚ), 0)) = (0, n, 0))
      ∧ (∀ n : ℕ, calculate_time_in_regions (List.replicate n ((0:ℚ), 40)) = (0, 0, n)) := by
  refine ⟨?_, ?_, ?_, ?_⟩
  · simpa using foldl_region_sum positions (0, 0, 0) h
  · intro n
    simpa [calculate_time_in_regions] using foldl_region_band1 n (0, 0, 0)
  · intro n
    simpa [calculate_time_in_regions] using foldl_region_band2 n (0, 0, 0)
  · intro n
    simpa [calculate_time_in_regions] using foldl_region_band3 n (0, 0, 0)

/-- Witness for `C7_regions_partition` at the concrete one-sample sequence
`[(0, -20)]`, whose `y` coordinate lies within the pitch. -/
theorem C7_regions_partition_witness :
    (∀ p ∈ ([((0:ℚ), -20)] : List (ℚ × ℚ)), -50 ≤ p.2 ∧ p.2 ≤ 50)
      ∧ (((calculate_time_in_regions [((0:ℚ), -20)]).1
            + (calculate_time_in_regions [((0:ℚ), -20)]).2.1
            + (calculate_time_in_regions [((0:ℚ), -20)]).2.2
            = ([((0:ℚ), -20)] : List (ℚ × ℚ)).length)
          ∧ (∀ n : ℕ, calculate_time_in_regions (List.replicate n ((0:ℚ), -20)) = (n, 0, 0))
          ∧ (∀ n : ℕ, calculate_time_in_regions (List.replicate n ((0:ℚ), 0)) = (0, n, 0))
          ∧ (∀ n : ℕ, calculate_time_in_regions (List.replicate n ((0:ℚ), 40)) = (0, 0, n))) :=
  ⟨by
    intro p hp
    rw [List.mem_singleton] at hp
    subst hp
    exact ⟨by norm_num, by norm_num⟩,
   C7_regions_partition [((0:ℚ), -20)] (by
    intro p hp
    rw [List.mem_singleton] at hp
    subst hp
    exact ⟨by norm_num, by norm_num⟩)⟩

/-! ### The degenerate stationary run -/

lemma hypot_zero : hypot 0 0 = 0 := by
  rw [hypot]
  norm_num

lemma sprintLogic_zero_vel (c : ℕ) (r : ℝ) (dur : ℕ) :
    (sprintLogic 0 0 0 0 c r dur).ax = 0 ∧ (sprintLogic 0 0 0 0 c r dur).ay = 0 := by
  rw [sprintLogic]
  split
  · constructor <;> (split <;> norm_num)
  · split <;> exact ⟨rfl, rfl⟩

lemma updateVelocity_zero : updateVelocity 0 0 0 0 = (0, 0) := by
  rw [updateVelocity]
  norm_num [hypot_zero]

lemma round2_zero : round2 0 = 0 := by
  rw [round2]
  norm_num

lemma stepTick_stationary (d : Draw) (hax : d.ax = 0) (hay : d.ay = 0) (c : ℕ) :
    stepTick (0, 0) d ⟨0, 0, 0, 0, c⟩
      = ⟨0, 0, 0, 0, (sprintLogic 0 0 0 0 c d.r d.dur).counter⟩ := by
  have hA : applyAttraction 0 0 0 0 d.ax d.ay = (0, 0) := by
    rw [applyAttraction, hax, hay]
    norm_num
  have hsp := sprintLogic_zero_vel c d.r d.dur
  simp only [stepTick, hA, hsp.1, hsp.2, updateVelocity_zero]
  rw [show (0:ℝ) + 0 = 0 from by norm_num]
  rw [bounce1_in (-30) 30 0 0 (by norm_num) (by norm_num),
    bounce1_in (-50) 50 0 0 (by norm_num) (by norm_num)]

lemma runSim_stationary (dur : ℕ → ℕ) :
    ∀ (n t c : ℕ),
      runSim (0, 0) (fun i => ⟨0, 0, 0, dur i⟩) t n ⟨0, 0, 0, 0, c⟩
        = (List.range' t n).map (fun i => ⟨i, 0, 0⟩) := by
  intro n
  induction n with
  | zero => intro t c; rfl
  | succ n ih =>
    intro t c
    have hstep := stepTick_stationary ⟨0, 0, 0, dur t⟩ rfl rfl c
    simp only [runSim, hstep, round2_zero, List.range', List.map_cons]
    rw [ih (t + 1)]

/-- Claim C6: when every stochastic draw returns `0` (both uniform
acceleration draws and the sprint-start draw; the sprint-duration draw may
return anything) and the attraction point is the origin, the simulator emits
the sample `(0, 0)` on every tick `1..N` — the agent never moves. -/
theorem C6_stationary_run (N : ℕ) (dur : ℕ → ℕ) :
    generate_tracking_data (fun i => ⟨0, 0, 0, dur i⟩) N (0, 0)
      = (List.range' 1 N).map (fun i => ⟨i, 0, 0⟩) :=
  runSim_stationary dur N 1 0

/-! ### Speed cap and per-tick displacement -/

lemma updateVelocity_speed_le (vx vy ax ay : ℝ) :
    hypot (updateVelocity vx vy ax ay).1 (updateVelocity vx vy ax ay).2 ≤ 7 := by
  simp only [updateVelocity]
  split
  · rename_i hgt
    dsimp only
    have hs := hypot_sq ((vx + ax) * 0.90) ((vy + ay) * 0.90)
    have hne : hypot ((vx + ax) * 0.90) ((vy + ay) * 0.90) ≠ 0 :=
      ne_of_gt (lt_trans (by norm_num) hgt)
    apply le_of_eq
    apply hypot_eq_of_sq _ _ _ (by norm_num)
    field_simp
    linarith [hs]
  · rename_i hle
    dsimp only
    exact le_trans (not_lt.mp hle) (by norm_num)

lemma bounce1_snd_sq_le (lo hi pos v : ℝ) :
    (bounce1 lo hi pos v).2 ^ 2 ≤ v ^ 2 := by
  rw [bounce1]
  split
  · dsimp only
    nlinarith [sq_nonneg v]
  · dsimp only
    exact le_refl _

lemma clamp_sub_abs_le (lo hi p c : ℝ) (h1 : lo ≤ c) (h2 : c ≤ hi) :
    |max lo (min hi p) - c| ≤ |p - c| := by
  have ha := le_abs_self (p - c)
  have hb : c - p ≤ |p - c| := by
    rw [abs_sub_comm]
    exact le_abs_self (c - p)
  have hnn : (0:ℝ) ≤ |p - c| := abs_nonneg _
  rcases max_cases lo (min hi p) with ⟨he, hge⟩ | ⟨he, hge⟩ <;>
    rcases min_cases hi p with ⟨he2, hge2⟩ | ⟨he2, hge2⟩ <;>
      rw [he, abs_le] <;> constructor <;> linarith

lemma bounce1_fst_close (lo hi c w : ℝ) (h1 : lo ≤ c) (h2 : c ≤ hi) :
    ((bounce1 lo hi (c + w) w).1 - c) ^ 2 ≤ w ^ 2 := by
  have habs : |(bounce1 lo hi (c + w) w).1 - c| ≤ |w| := by
    rw [bounce1]
    split
    · dsimp only
      have h := clamp_sub_abs_le lo hi (c + w) c h1 h2
      rwa [add_sub_cancel_left] at h
    · dsimp only
      rw [add_sub_cancel_left]
  calc ((bounce1 lo hi (c + w) w).1 - c) ^ 2
      = |(bounce1 lo hi (c + w) w).1 - c| ^ 2 := (sq_abs _).symm
    _ ≤ |w| ^ 2 := pow_le_pow_left₀ (abs_nonneg _) habs 2
    _ = w ^ 2 := sq_abs w

/-- Claim C10: in every tick of the simulator, starting from a state whose
position lies within the pitch bounds (as every reachable state does), the
velocity at the end of the tick satisfies `hypot vx vy ≤ 7.0` — the speed cap
rescales any faster velocity and the `-0.5` bounce factor only shrinks a
component — and consequently the unrounded position moves by at most `7.0`
metres in the tick. -/
theorem C10_speed_and_displacement (attraction : ℝ × ℝ) (d : Draw) (s : SimState)
    (hx1 : -30 ≤ s.x) (hx2 : s.x ≤ 30) (hy1 : -50 ≤ s.y) (hy2 : s.y ≤ 50) :
    hypot (stepTick attraction d s).vx (stepTick attraction d s).vy ≤ 7
      ∧ hypot ((stepTick attraction d s).x - s.x) ((stepTick attraction d s).y - s.y) ≤ 7 := by
  simp only [stepTick]
  constructor
  · exact le_trans
      (hypot_le_hypot _ _ _ _ (bounce1_snd_sq_le _ _ _ _) (bounce1_snd_sq_le _ _ _ _))
      (updateVelocity_speed_le _ _ _ _)
  · exact le_trans
      (hypot_le_hypot _ _ _ _ (bounce1_fst_close _ _ _ _ hx1 hx2)
        (bounce1_fst_close _ _ _ _ hy1 hy2))
      (updateVelocity_speed_le _ _ _ _)

/-- Witness for `C10_speed_and_displacement` at the initial state and an
all-zero draw. -/
theorem C10_speed_and_displacement_witness :
    (-30 ≤ initState.x ∧ initState.x ≤ 30 ∧ -50 ≤ initState.y ∧ initState.y ≤ 50)
      ∧ (hypot (stepTick (0, 0) ⟨0, 0, 0, 3⟩ initState).vx
            (stepTick (0, 0) ⟨0, 0, 0, 3⟩ initState).vy ≤ 7
          ∧ hypot ((stepTick (0, 0) ⟨0, 0, 0, 3⟩ initState).x - initState.x)
              ((stepTick (0, 0) ⟨0, 0, 0, 3⟩ initState).y - initState.y) ≤ 7) :=
  ⟨by norm_num [initState],
   C10_speed_and_displacement (0, 0) ⟨0, 0, 0, 3⟩ initState
     (by norm_num [initState]) (by norm_num [initState])
     (by norm_num [initState]) (by norm_num [initState])⟩

/-! ### Quick-turn detection -/

lemma turnAt_along (p0 p1 p2 u : ℝ × ℝ) (c : ℝ)
    (hu : u.1 ^ 2 + u.2 ^ 2 = 1) (hc : c ≠ 0)
    (h1x : p1.1 - p0.1 = 5 * u.1) (h1y : p1.2 - p0.2 = 5 * u.2)
    (h2x : p2.1 - p1.1 = c * u.1) (h2y : p2.2 - p1.2 = c * u.2) :
    turnAt p0 p1 p2 = if c < 0 then 1 else 0 := by
  have h5 : hypot (5 * u.1) (5 * u.2) = 5 :=
    hypot_eq_of_sq _ _ _ (by norm_num) (by linear_combination 25 * hu)
  have hcmag : hypot (c * u.1) (c * u.2) = |c| :=
    hypot_eq_of_sq _ _ _ (abs_nonneg c) (by rw [sq_abs]; linear_combination c ^ 2 * hu)
  have hdot : 5 * u.1 * (c * u.1) + 5 * u.2 * (c * u.2) = 5 * c := by
    linear_combination 5 * c * hu
  simp only [turnAt, h1x, h1y, h2x, h2y, h5, hcmag, hdot]
  rw [if_pos (by norm_num : (5:ℝ) > 3)]
  rw [if_neg (show ¬ ((5:ℝ) = 0 ∨ |c| = 0) from by
    push_neg
    exact ⟨by norm_num, fun h => hc (abs_eq_zero.mp h)⟩)]
  have hfrac : 5 * c / (5 * |c|) = c / |c| :=
    mul_div_mul_left _ _ (by norm_num : (5:ℝ) ≠ 0)
  rw [hfrac]
  rcases lt_or_gt_of_ne hc with hneg | hpos
  · rw [if_pos hneg]
    have hval : c / |c| = -1 := by
      rw [abs_of_neg hneg, div_neg, div_self hc]
    rw [hval, show min (1:ℝ) (-1) = -1 from by norm_num,
      show max (-1:ℝ) (-1) = -1 from by norm_num, Real.arccos_neg_one,
      show Real.pi * (180 / Real.pi) = 180 from by
        rw [mul_comm, div_mul_cancel₀ _ Real.pi_ne_zero]]
    rw [if_pos (by norm_num : (180:ℝ) > 90)]
  · rw [if_neg (not_lt.mpr hpos.le)]
    have hval : c / |c| = 1 := by
      rw [abs_of_pos hpos, div_self hc]
    rw [hval, show min (1:ℝ) 1 = 1 from by norm_num,
      show max (-1:ℝ) 1 = 1 from by norm_num, Real.arccos_one, zero_mul]
    rw [if_neg (by norm_num : ¬ ((0:ℝ) > 90))]

/-- Claim C8: on a trajectory made of a straight segment traversed at speed 5
(two ticks of displacement `5u` for a unit vector `u`) immediately followed
by an exact 180-degree reversal at speed 5, the quick-turn counter returns
exactly `1`: only the reversal index registers a turn. -/
theorem C8_quick_turn_reversal (q u : ℝ × ℝ) (hu : u.1 ^ 2 + u.2 ^ 2 = 1) :
    calculate_quick_turns
      [q, (q.1 + 5 * u.1, q.2 + 5 * u.2), (q.1 + 10 * u.1, q.2 + 10 * u.2),
        (q.1 + 5 * u.1, q.2 + 5 * u.2)] = 1 := by
  have h1 := turnAt_along q (q.1 + 5 * u.1, q.2 + 5 * u.2)
    (q.1 + 10 * u.1, q.2 + 10 * u.2) u 5 hu (by norm_num)
    (by dsimp only; ring) (by dsimp only; ring) (by dsimp only; ring) (by dsimp only; ring)
  have h2 := turnAt_along (q.1 + 5 * u.1, q.2 + 5 * u.2) (q.1 + 10 * u.1, q.2 + 10 * u.2)
    (q.1 + 5 * u.1, q.2 + 5 * u.2) u (-5) hu (by norm_num)
    (by dsimp only; ring) (by dsimp only; ring) (by dsimp only; ring) (by dsimp only; ring)
  simp only [calculate_quick_turns, h1, h2]
  norm_num

/-- Witness for `C8_quick_turn_reversal` with start point `(0, 0)` and unit
direction `(1, 0)`: the trajectory `[(0,0), (5,0), (10,0), (5,0)]`. -/
theorem C8_quick_turn_reversal_witness :
    (((1:ℝ), (0:ℝ)).1 ^ 2 + ((1:ℝ), (0:ℝ)).2 ^ 2 = 1)
      ∧ calculate_quick_turns
          [((0:ℝ), (0:ℝ)), (((0:ℝ), (0:ℝ)).1 + 5 * ((1:ℝ), (0:ℝ)).1,
              ((0:ℝ), (0:ℝ)).2 + 5 * ((1:ℝ), (0:ℝ)).2),
            (((0:ℝ), (0:ℝ)).1 + 10 * ((1:ℝ), (0:ℝ)).1,
              ((0:ℝ), (0:ℝ)).2 + 10 * ((1:ℝ), (0:ℝ)).2),
            (((0:ℝ), (0:ℝ)).1 + 5 * ((1:ℝ), (0:ℝ)).1,
              ((0:ℝ), (0:ℝ)).2 + 5 * ((1:ℝ), (0:ℝ)).2)] = 1 :=
  ⟨by norm_num, C8_quick_turn_reversal ((0:ℝ), (0:ℝ)) ((1:ℝ), (0:ℝ)) (by norm_num)⟩

end SportsAnalysis
